import Mathlib

/-
Verification of the automaton core of a DFA builder and tester
(src/app.js, class DFA).

The model is embedded shallowly:
- A state is a record mirroring the JS state object.  Transition tables
  store target state identities (a `Nat` id) rather than object
  references; within the class API every stored identity resolves to a
  member state and identities are unique, so id equality coincides with
  the reference equality the JS code uses.
- The alphabet is a JS `Set` of symbols; the simulation indexes the input
  string character by character, so symbols are modelled as `Char` and
  the set as a duplicate-free list in insertion order (the order
  `Array.from` observes).
- Input strings are `List Char`; the string-valued fields of results
  (`remaining`, trace symbols, generated strings) are rebuilt as `String`
  exactly where the source builds strings.
- Absent JS object keys (`error`, `finalState`) are `Option` fields.
-/

namespace VibeDfa

structure StateRec where
  id : Nat
  name : String
  x : Int
  y : Int
  radius : Nat
  isStart : Bool
  isAccept : Bool
  transitions : List (Char × Nat)
deriving DecidableEq, Repr

structure DFA where
  states : List StateRec
  alphabet : List Char
  startState : Option Nat
  stateIdCounter : Nat
deriving DecidableEq, Repr

/-- Lookup `state.transitions[symbol]`: the target id stored for a symbol. -/
def lookupTr (tr : List (Char × Nat)) (sym : Char) : Option Nat :=
  match tr.find? (fun p => p.1 == sym) with
  | some p => some p.2
  | none => none

/-- `fromState.transitions[symbol] = to`: overwrite the entry for the symbol
if present (JS objects keep the original key position), else append. -/
def setTr : List (Char × Nat) → Char → Nat → List (Char × Nat)
  | [], sym, tid => [(sym, tid)]
  | p :: rest, sym, tid =>
    if p.1 = sym then (sym, tid) :: rest else p :: setTr rest sym tid

/-- `delete fromState.transitions[symbol]`. -/
def delTr (tr : List (Char × Nat)) (sym : Char) : List (Char × Nat) :=
  tr.filter (fun p => p.1 ≠ sym)

/-- The `DFA` constructor: empty state collection, alphabet `{"0","1"}`,
no start state, id counter 0. -/
def mkDFA : DFA :=
  { states := [], alphabet := ['0', '1'], startState := none, stateIdCounter := 0 }

/-- `addState(x, y, name)`: fresh id from the counter, default name `q<id>`,
radius 30, not start, not accepting, empty transition table; the state is
appended and returned. -/
def addState (d : DFA) (x y : Int) (nm : Option String) : StateRec × DFA :=
  let id := d.stateIdCounter
  let st : StateRec :=
    { id := id, name := nm.getD ("q" ++ toString id), x := x, y := y, radius := 30,
      isStart := false, isAccept := false, transitions := [] }
  (st, { d with states := d.states ++ [st], stateIdCounter := id + 1 })

/-- The transition pruning `removeState` performs on every state: delete
every entry whose target is the removed state. -/
def pruneTargets (tid : Nat) (s : StateRec) : StateRec :=
  { s with transitions := s.transitions.filter (fun p => p.2 ≠ tid) }

/-- `removeState(stateId)`: locate the first state with this id; if found,
clear the start reference if it is this state, delete every transition
targeting it, and splice it out of the collection; otherwise do nothing. -/
def removeState (d : DFA) (sid : Nat) : DFA :=
  match d.states.find? (fun s => s.id == sid) with
  | none => d
  | some st =>
    { d with
      startState := if d.startState = some st.id then none else d.startState,
      states := (d.states.map (pruneTargets st.id)).eraseP (fun s => s.id == sid) }

/-- Resolve a stored state identity to the state record. -/
def findState (d : DFA) (tid : Nat) : Option StateRec :=
  d.states.find? (fun s => s.id == tid)

/-- `addTransition(fromState, toState, symbol)`: records the transition and
returns true only when the symbol is in the alphabet; otherwise returns
false and changes nothing. -/
def addTransition (d : DFA) (fromId toId : Nat) (sym : Char) : Bool × DFA :=
  if sym ∈ d.alphabet then
    (true,
      { d with
        states := d.states.map (fun s =>
          if s.id = fromId then { s with transitions := setTr s.transitions sym toId } else s) })
  else (false, d)

/-- `removeTransition(fromState, symbol)`. -/
def removeTransition (d : DFA) (fromId : Nat) (sym : Char) : DFA :=
  { d with
    states := d.states.map (fun s =>
      if s.id = fromId then { s with transitions := delTr s.transitions sym } else s) }

/-- Insertion into a JS `Set`, element by element: an already-seen symbol
is skipped, a new one is appended to the iteration order. -/
def dedupFirstGo (seen : List Char) : List Char → List Char
  | [] => []
  | c :: rest =>
    if c ∈ seen then dedupFirstGo seen rest
    else c :: dedupFirstGo (seen ++ [c]) rest

/-- `new Set(symbols)`: duplicates dropped, first occurrences kept in order. -/
def dedupFirst (l : List Char) : List Char := dedupFirstGo [] l

/-- The per-state pruning `setAlphabet` performs: keep exactly the
transitions whose symbol is in the new alphabet. -/
def pruneState (ab : List Char) (s : StateRec) : StateRec :=
  { s with transitions := s.transitions.filter (fun p => p.1 ∈ ab) }

/-- `setAlphabet(symbols)`: replace the alphabet with the set of the given
symbols, then delete from every state each transition whose symbol is no
longer in the alphabet. -/
def setAlphabet (d : DFA) (symbols : List Char) : DFA :=
  let ab := dedupFirst symbols
  { d with alphabet := ab, states := d.states.map (pruneState ab) }

structure TraceEntry where
  state : String
  symbol : String
  remaining : String
  error : Option String
deriving DecidableEq, Repr

structure SimResult where
  accepted : Bool
  error : Option String
  finalState : Option String
  trace : List TraceEntry
deriving DecidableEq, Repr

/-- `current.transitions[symbol]` resolved through the arena.  Under the
class API every stored target id resolves, so a failed resolution
coincides with the missing-transition case of the source. -/
def stepTarget (d : DFA) (st : StateRec) (c : Char) : Option StateRec :=
  match lookupTr st.transitions c with
  | some tid => findState d tid
  | none => none

/-- The one-character string `inputString[i]`. -/
def symStr (c : Char) : String := String.mk [c]

/-- The loop of `simulate`: for each position, check the symbol is in the
alphabet (else fail keeping the trace as recorded), then follow the
transition (if absent, record a failing trace entry and fail), appending a
trace entry for each consumed symbol. -/
def simLoop (d : DFA) : StateRec → List Char → List TraceEntry → SimResult
  | cur, [], trace =>
    { accepted := cur.isAccept, error := none, finalState := some cur.name, trace := trace }
  | cur, c :: rest, trace =>
    if c ∈ d.alphabet then
      match stepTarget d cur c with
      | some tgt =>
        simLoop d tgt rest
          (trace ++ [{ state := tgt.name, symbol := symStr c,
                       remaining := String.mk rest, error := none }])
      | none =>
        { accepted := false,
          error := some ("No transition from " ++ cur.name ++ " on symbol '" ++ symStr c ++ "'"),
          finalState := none,
          trace := trace ++ [{ state := cur.name, symbol := symStr c,
                               remaining := String.mk rest,
                               error := some "No transition defined" }] }
    else
      { accepted := false,
        error := some ("Symbol '" ++ symStr c ++ "' not in alphabet"),
        finalState := none, trace := trace }

/-- `simulate(inputString)`.  The start reference, when set by the class
API, always resolves to a member state; an unresolvable start id is
treated like an unset one. -/
def simulate (d : DFA) (input : List Char) : SimResult :=
  match d.startState with
  | none =>
    { accepted := false, error := some "No start state defined", finalState := none, trace := [] }
  | some sid =>
    match findState d sid with
    | none =>
      { accepted := false, error := some "No start state defined", finalState := none, trace := [] }
    | some st =>
      simLoop d st input
        [{ state := st.name, symbol := "START", remaining := String.mk input, error := none }]

/-- State-threaded form of the simulation loop: the model is passed along
every step and returned with the report, making the absence of writes a
provable statement rather than a convention. -/
def simLoopS (d : DFA) : StateRec → List Char → List TraceEntry → SimResult × DFA
  | cur, [], trace =>
    ({ accepted := cur.isAccept, error := none, finalState := some cur.name, trace := trace }, d)
  | cur, c :: rest, trace =>
    if c ∈ d.alphabet then
      match stepTarget d cur c with
      | some tgt =>
        simLoopS d tgt rest
          (trace ++ [{ state := tgt.name, symbol := symStr c,
                       remaining := String.mk rest, error := none }])
      | none =>
        ({ accepted := false,
           error := some ("No transition from " ++ cur.name ++ " on symbol '" ++ symStr c ++ "'"),
           finalState := none,
           trace := trace ++ [{ state := cur.name, symbol := symStr c,
                                remaining := String.mk rest,
                                error := some "No transition defined" }] }, d)
    else
      ({ accepted := false,
         error := some ("Symbol '" ++ symStr c ++ "' not in alphabet"),
         finalState := none, trace := trace }, d)

/-- State-threaded form of `simulate`. -/
def simulateS (d : DFA) (input : List Char) : SimResult × DFA :=
  match d.startState with
  | none =>
    ({ accepted := false, error := some "No start state defined", finalState := none, trace := [] }, d)
  | some sid =>
    match findState d sid with
    | none =>
      ({ accepted := false, error := some "No start state defined", finalState := none, trace := [] }, d)
    | some st =>
      simLoopS d st input
        [{ state := st.name, symbol := "START", remaining := String.mk input, error := none }]

structure GenEntry where
  string : String
  accepted : Bool
deriving DecidableEq, Repr

/-- `current || "ε"`: the empty string is displayed as ε. -/
def display (s : List Char) : String := if s.isEmpty then "ε" else String.mk s

/-- The accepted flag `generateAllStrings` stores for a string:
`result.accepted && !result.error`. -/
def genAccept (d : DFA) (s : List Char) : Bool :=
  (simulate d s).accepted && (simulate d s).error.isNone

/-- The inner recursion `generate(current, length)` of `generateAllStrings`:
push an entry for the current string, then, while below the bound, extend
it by every alphabet symbol in iteration order, depth first. -/
def generate (d : DFA) (maxLength : Nat) (current : List Char) (len : Nat) : List GenEntry :=
  if len > maxLength then []
  else
    { string := display current, accepted := genAccept d current } ::
    (if h : len < maxLength then
      d.alphabet.flatMap (fun a => generate d maxLength (current ++ [a]) (len + 1))
    else [])
termination_by maxLength - len
decreasing_by
  simp_wf
  omega

/-- `generateAllStrings(maxLength)`. -/
def generateAllStrings (d : DFA) (maxLength : Nat) : List GenEntry :=
  generate d maxLength [] 0

/-! Specification-side characterisations, used to state the enumeration and
simulation claims; each is compared with the source-derived functions
above by theorems below. -/

/-- The walk the specification describes: from a state, consume the input
symbol by symbol through defined transitions over alphabet symbols. -/
def walk (d : DFA) (st : StateRec) : List Char → Option StateRec
  | [] => some st
  | c :: rest =>
    if c ∈ d.alphabet then
      match stepTarget d st c with
      | some t => walk d t rest
      | none => none
    else none

/-- The trace the specification describes for the consumed part of the
input: one entry per consumed symbol, recording the target state's name,
the symbol, and the remaining suffix of the full input.  `extra` is the
part of the input that follows the consumed prefix being traced. -/
def walkTrace (d : DFA) (st : StateRec) (extra : List Char) : List Char → List TraceEntry
  | [] => []
  | c :: rest =>
    match stepTarget d st c with
    | some t =>
      { state := t.name, symbol := symStr c, remaining := String.mk (rest ++ extra),
        error := none } :: walkTrace d t extra rest
    | none => []

/-- Depth-first pre-order enumeration of `cur` and all its extensions by at
most `k` alphabet symbols. -/
def specDFS (ab : List Char) : Nat → List Char → List (List Char)
  | 0, cur => [cur]
  | k + 1, cur => cur :: ab.flatMap (fun a => specDFS ab k (cur ++ [a]))

/-- All strings of exactly length `L` over the alphabet, in lexicographic
order with respect to the alphabet's iteration order. -/
def specLex (ab : List Char) : Nat → List (List Char)
  | 0 => [[]]
  | L + 1 => ab.flatMap (fun a => (specLex ab L).map (fun s => a :: s))

/-- Position of a symbol in the alphabet's iteration order. -/
def symRank (ab : List Char) (c : Char) : Nat :=
  match ab with
  | [] => 0
  | a :: rest => if a = c then 0 else symRank rest c + 1

/-- Strict precedence of symbols in the alphabet's iteration order. -/
def symLt (ab : List Char) (a b : Char) : Prop := symRank ab a < symRank ab b

/-- Number of strings of length at most `k` over an alphabet of `m` symbols. -/
def strCount (m : Nat) : Nat → Nat
  | 0 => 1
  | k + 1 => 1 + m * strCount m k

/-! Concrete automatons used as witnesses: the scenario of the spec
(states q0 start, q1 accept; `q0 →1 q1`, `q1 →1 q1`, `q0 →0 q0`,
`q1 →0 q0` over alphabet `{0,1}`), and a start-only automaton with no
transitions. -/

def exQ0 : StateRec :=
  { id := 0, name := "q0", x := 100, y := 100, radius := 30,
    isStart := true, isAccept := false, transitions := [('1', 1), ('0', 0)] }

def exQ1 : StateRec :=
  { id := 1, name := "q1", x := 300, y := 100, radius := 30,
    isStart := false, isAccept := true, transitions := [('1', 1), ('0', 0)] }

def exDFA : DFA :=
  { states := [exQ0, exQ1], alphabet := ['0', '1'], startState := some 0, stateIdCounter := 2 }

def exQ0Bare : StateRec :=
  { id := 0, name := "q0", x := 100, y := 100, radius := 30,
    isStart := true, isAccept := false, transitions := [] }

def exDFA2 : DFA :=
  { states := [exQ0Bare], alphabet := ['0', '1'], startState := some 0, stateIdCounter := 1 }

end VibeDfa


namespace VibeDfa

/-! Step equations for the simulation walk, stated once so the induction
proofs below never unfold the recursive definitions directly. -/

theorem walk_nil (d : DFA) (st : StateRec) : walk d st [] = some st := rfl

theorem walk_cons_mem_some (d : DFA) {st t : StateRec} {c : Char} (rest : List Char)
    (hc : c ∈ d.alphabet) (hst : stepTarget d st c = some t) :
    walk d st (c :: rest) = walk d t rest := by
  simp [walk, hc, hst]

theorem walk_cons_inv {d : DFA} {st fin : StateRec} {c : Char} {rest : List Char}
    (h : walk d st (c :: rest) = some fin) :
    c ∈ d.alphabet ∧ ∃ t, stepTarget d st c = some t ∧ walk d t rest = some fin := by
  by_cases hc : c ∈ d.alphabet
  · cases hst : stepTarget d st c with
    | some t =>
      refine ⟨hc, t, rfl, ?_⟩
      rw [← walk_cons_mem_some d rest hc hst]
      exact h
    | none => simp [walk, hc, hst] at h
  · simp [walk, hc] at h

theorem walkTrace_nil (d : DFA) (st : StateRec) (extra : List Char) :
    walkTrace d st extra [] = [] := rfl

theorem walkTrace_cons_some (d : DFA) {st t : StateRec} {c : Char} (extra rest : List Char)
    (hst : stepTarget d st c = some t) :
    walkTrace d st extra (c :: rest) =
      { state := t.name, symbol := symStr c, remaining := String.mk (rest ++ extra),
        error := none } :: walkTrace d t extra rest := by
  simp [walkTrace, hst]

theorem simLoop_nil (d : DFA) (cur : StateRec) (tr : List TraceEntry) :
    simLoop d cur [] tr =
      { accepted := cur.isAccept, error := none, finalState := some cur.name, trace := tr } := rfl

theorem simLoop_cons_step (d : DFA) {cur tgt : StateRec} {c : Char} (rest : List Char)
    (tr : List TraceEntry) (hc : c ∈ d.alphabet) (hst : stepTarget d cur c = some tgt) :
    simLoop d cur (c :: rest) tr =
      simLoop d tgt rest
        (tr ++ [{ state := tgt.name, symbol := symStr c,
                  remaining := String.mk rest, error := none }]) := by
  simp [simLoop, hc, hst]

theorem simLoop_cons_stuck (d : DFA) {cur : StateRec} {c : Char} (rest : List Char)
    (tr : List TraceEntry) (hc : c ∈ d.alphabet) (hst : stepTarget d cur c = none) :
    simLoop d cur (c :: rest) tr =
      { accepted := false,
        error := some ("No transition from " ++ cur.name ++ " on symbol '" ++ symStr c ++ "'"),
        finalState := none,
        trace := tr ++ [{ state := cur.name, symbol := symStr c,
                          remaining := String.mk rest,
                          error := some "No transition defined" }] } := by
  simp [simLoop, hc, hst]

theorem simLoop_cons_bad (d : DFA) {cur : StateRec} {c : Char} (rest : List Char)
    (tr : List TraceEntry) (hc : c ∉ d.alphabet) :
    simLoop d cur (c :: rest) tr =
      { accepted := false,
        error := some ("Symbol '" ++ symStr c ++ "' not in alphabet"),
        finalState := none, trace := tr } := by
  simp [simLoop, hc]

theorem simLoopS_eq (d : DFA) (rest : List Char) :
    ∀ (cur : StateRec) (trace : List TraceEntry),
      simLoopS d cur rest trace = (simLoop d cur rest trace, d) := by
  induction rest with
  | nil => intro cur trace; rfl
  | cons c cs ih =>
    intro cur trace
    by_cases hc : c ∈ d.alphabet
    · cases hst : stepTarget d cur c with
      | some tgt =>
        rw [simLoop_cons_step d cs trace hc hst]
        simpa [simLoopS, hc, hst] using ih tgt _
      | none =>
        rw [simLoop_cons_stuck d cs trace hc hst]
        simp [simLoopS, hc, hst]
    · rw [simLoop_cons_bad d cs trace hc]
      simp [simLoopS, hc]

theorem simulateS_eq (d : DFA) (input : List Char) :
    simulateS d input = (simulate d input, d) := by
  cases hs : d.startState with
  | none => simp [simulateS, simulate, hs]
  | some sid =>
    cases hf : findState d sid with
    | none => simp [simulateS, simulate, hs, hf]
    | some st =>
      simp only [simulateS, simulate, hs, hf]
      exact simLoopS_eq d input st _

theorem walkTrace_length (d : DFA) (extra : List Char) (rest : List Char) :
    ∀ (st fin : StateRec), walk d st rest = some fin →
      (walkTrace d st extra rest).length = rest.length := by
  induction rest with
  | nil => intro st fin _; rfl
  | cons c cs ih =>
    intro st fin h
    obtain ⟨_, t, hst, hw⟩ := walk_cons_inv h
    rw [walkTrace_cons_some d extra cs hst]
    simpa using ih t fin hw

theorem simLoop_walk (d : DFA) (rest : List Char) :
    ∀ (st fin : StateRec) (tr : List TraceEntry),
      walk d st rest = some fin →
      simLoop d st rest tr =
        { accepted := fin.isAccept, error := none, finalState := some fin.name,
          trace := tr ++ walkTrace d st [] rest } := by
  induction rest with
  | nil =>
    intro st fin tr h
    rw [walk_nil] at h
    cases h
    simp [simLoop_nil, walkTrace_nil]
  | cons c cs ih =>
    intro st fin tr h
    obtain ⟨hc, t, hst, hw⟩ := walk_cons_inv h
    rw [simLoop_cons_step d cs tr hc hst, ih t fin _ hw, walkTrace_cons_some d [] cs hst]
    simp

theorem simLoop_symbol_error (d : DFA) (c : Char) (post : List Char) (hc : c ∉ d.alphabet)
    (pre : List Char) :
    ∀ (st mid : StateRec) (tr : List TraceEntry),
      walk d st pre = some mid →
      simLoop d st (pre ++ c :: post) tr =
        { accepted := false,
          error := some ("Symbol '" ++ symStr c ++ "' not in alphabet"),
          finalState := none,
          trace := tr ++ walkTrace d st (c :: post) pre } := by
  induction pre with
  | nil =>
    intro st mid tr _
    rw [List.nil_append, simLoop_cons_bad d post tr hc]
    simp [walkTrace_nil]
  | cons a as ih =>
    intro st mid tr h
    obtain ⟨ha, t, hst, hw⟩ := walk_cons_inv h
    rw [List.cons_append, simLoop_cons_step d (as ++ c :: post) tr ha hst,
      ih t mid _ hw, walkTrace_cons_some d (c :: post) as hst]
    simp

theorem simLoop_no_transition (d : DFA) (c : Char) (post : List Char) (hc : c ∈ d.alphabet)
    (pre : List Char) :
    ∀ (st mid : StateRec) (tr : List TraceEntry),
      walk d st pre = some mid →
      stepTarget d mid c = none →
      simLoop d st (pre ++ c :: post) tr =
        { accepted := false,
          error := some ("No transition from " ++ mid.name ++ " on symbol '" ++ symStr c ++ "'"),
          finalState := none,
          trace := tr ++ walkTrace d st (c :: post) pre ++
            [{ state := mid.name, symbol := symStr c, remaining := String.mk post,
               error := some "No transition defined" }] } := by
  induction pre with
  | nil =>
    intro st mid tr h hstep
    rw [walk_nil] at h
    cases h
    rw [List.nil_append, simLoop_cons_stuck d post tr hc hstep]
    simp [walkTrace_nil]
  | cons a as ih =>
    intro st mid tr h hstep
    obtain ⟨ha, t, hst, hw⟩ := walk_cons_inv h
    rw [List.cons_append, simLoop_cons_step d (as ++ c :: post) tr ha hst,
      ih t mid _ hw hstep, walkTrace_cons_some d (c :: post) as hst]
    simp

end VibeDfa

namespace VibeDfa

/-! Lemmas about the alphabet set construction. -/

theorem mem_dedupFirstGo (x : Char) :
    ∀ (l seen : List Char), x ∈ dedupFirstGo seen l ↔ x ∈ l ∧ x ∉ seen := by
  intro l
  induction l with
  | nil => intro seen; simp [dedupFirstGo]
  | cons c rest ih =>
    intro seen
    by_cases hc : c ∈ seen
    · rw [dedupFirstGo, if_pos hc, ih seen]
      constructor
      · rintro ⟨hx, hns⟩; exact ⟨List.mem_cons_of_mem c hx, hns⟩
      · rintro ⟨hx, hns⟩
        rcases List.mem_cons.mp hx with rfl | hx'
        · exact absurd hc hns
        · exact ⟨hx', hns⟩
    · rw [dedupFirstGo, if_neg hc]
      rw [List.mem_cons, ih (seen ++ [c])]
      simp only [List.mem_append, List.mem_singleton]
      constructor
      · rintro (rfl | ⟨hx, hns⟩)
        · exact ⟨List.mem_cons_self x rest, hc⟩
        · exact ⟨List.mem_cons_of_mem c hx, fun h => hns (Or.inl h)⟩
      · rintro ⟨hx, hns⟩
        rcases List.mem_cons.mp hx with rfl | hx'
        · exact Or.inl rfl
        · by_cases hxc : x = c
          · exact Or.inl hxc
          · exact Or.inr ⟨hx', fun h => h.elim hns hxc⟩

theorem mem_dedupFirst (x : Char) (l : List Char) : x ∈ dedupFirst l ↔ x ∈ l := by
  rw [dedupFirst, mem_dedupFirstGo]
  simp

/-! The enumeration recursion of `generateAllStrings` produces exactly the
depth-first pre-order enumeration `specDFS` of all strings of bounded
length, entry by entry. -/

theorem generate_eq_specDFS (d : DFA) (k : Nat) :
    ∀ (cur : List Char) (len n : Nat), len + k = n →
      generate d n cur len =
        (specDFS d.alphabet k cur).map
          (fun s => { string := display s, accepted := genAccept d s }) := by
  induction k with
  | zero =>
    intro cur len n h
    rw [generate]
    have h1 : ¬ len > n := by omega
    have h2 : ¬ len < n := by omega
    simp [h1, h2, specDFS]
  | succ k ih =>
    intro cur len n h
    rw [generate]
    have h1 : ¬ len > n := by omega
    have h2 : len < n := by omega
    simp only [if_neg h1, dif_pos h2, specDFS, List.map_cons, List.map_flatMap]
    congr 1
    have hF : (fun a => generate d n (cur ++ [a]) (len + 1)) =
        (fun a => (specDFS d.alphabet k (cur ++ [a])).map
          (fun s => { string := display s, accepted := genAccept d s })) :=
      funext (fun a => ih (cur ++ [a]) (len + 1) n (by omega))
    rw [hF]

theorem generateAllStrings_eq (d : DFA) (n : Nat) :
    generateAllStrings d n =
      (specDFS d.alphabet n []).map
        (fun s => { string := display s, accepted := genAccept d s }) :=
  generate_eq_specDFS d n [] 0 n (by omega)

/-! Counting the enumeration. -/

theorem sum_map_const_nat {α : Type} (l : List α) (x : Nat) :
    (l.map (fun _ => x)).sum = l.length * x := by
  induction l with
  | nil => simp
  | cons a rest ih => simp [ih, Nat.succ_mul, Nat.add_comm]

theorem specDFS_length (ab : List Char) (k : Nat) :
    ∀ cur, (specDFS ab k cur).length = strCount ab.length k := by
  induction k with
  | zero => intro cur; rfl
  | succ k ih =>
    intro cur
    simp only [specDFS, List.length_cons, List.length_flatMap]
    have hmap : List.map (List.length ∘ fun a => specDFS ab k (cur ++ [a])) ab =
        List.map (fun _ => strCount ab.length k) ab :=
      List.map_congr_left (fun a _ => ih (cur ++ [a]))
    rw [hmap, sum_map_const_nat, strCount]
    omega

theorem strCount_eq_sum (m : Nat) (k : Nat) :
    strCount m k = ∑ j ∈ Finset.range (k + 1), m ^ j := by
  induction k with
  | zero => simp [strCount]
  | succ k ih =>
    rw [strCount, ih, Finset.sum_range_succ' (fun j => m ^ j) (k + 1)]
    simp only [pow_succ', pow_zero, ← Finset.mul_sum]
    omega

theorem mem_specDFS (ab : List Char) (k : Nat) :
    ∀ (cur s : List Char),
      s ∈ specDFS ab k cur ↔
        ∃ t, s = cur ++ t ∧ (∀ c ∈ t, c ∈ ab) ∧ t.length ≤ k := by
  induction k with
  | zero =>
    intro cur s
    simp only [specDFS, List.mem_singleton]
    constructor
    · rintro rfl; exact ⟨[], by simp⟩
    · rintro ⟨t, rfl, -, htlen⟩
      rw [Nat.le_zero, List.length_eq_zero] at htlen
      simp [htlen]
  | succ k ih =>
    intro cur s
    simp only [specDFS, List.mem_cons, List.mem_flatMap]
    constructor
    · rintro (rfl | ⟨a, ha, hs⟩)
      · exact ⟨[], by simp⟩
      · obtain ⟨t, rfl, htab, htlen⟩ := (ih (cur ++ [a]) _).mp hs
        refine ⟨a :: t, by simp, ?_, by simpa using htlen⟩
        intro c hc
        rcases List.mem_cons.mp hc with rfl | hc'
        · exact ha
        · exact htab c hc'
    · rintro ⟨t, rfl, htab, htlen⟩
      cases t with
      | nil => simp
      | cons a t' =>
        refine Or.inr ⟨a, htab a (List.mem_cons_self a t'), ?_⟩
        refine (ih (cur ++ [a]) _).mpr ⟨t', by simp, ?_, by simpa using htlen⟩
        exact fun c hc => htab c (List.mem_cons_of_mem a hc)

theorem length_le_of_mem_specDFS {ab : List Char} {k : Nat} {cur s : List Char}
    (h : s ∈ specDFS ab k cur) : cur.length ≤ s.length := by
  obtain ⟨t, rfl, -, -⟩ := (mem_specDFS ab k cur s).mp h
  simp

end VibeDfa

namespace VibeDfa

/-! Restricting the depth-first enumeration to one length gives the
lexicographic enumeration of that length. -/

theorem filter_specDFS (ab : List Char) (k : Nat) :
    ∀ (j : Nat) (cur : List Char), j ≤ k →
      (specDFS ab k cur).filter (fun s => s.length == cur.length + j) =
        (specLex ab j).map (fun t => cur ++ t) := by
  induction k with
  | zero =>
    intro j cur hj
    rw [Nat.le_zero] at hj
    subst hj
    simp [specDFS, specLex]
  | succ k ih =>
    intro j cur hj
    simp only [specDFS, List.filter_cons]
    cases j with
    | zero =>
      rw [if_pos (by simp)]
      have hnil : (ab.flatMap (fun a => specDFS ab k (cur ++ [a]))).filter
          (fun s => s.length == cur.length + 0) = [] := by
        rw [List.filter_eq_nil_iff]
        intro s hs
        obtain ⟨a, -, hsa⟩ := List.mem_flatMap.mp hs
        have hlen := length_le_of_mem_specDFS hsa
        simp only [List.length_append, List.length_singleton] at hlen
        simp only [beq_iff_eq]
        omega
      rw [hnil]
      simp [specLex]
    | succ j' =>
      rw [if_neg (by simp)]
      rw [List.filter_flatMap]
      have hblock : ∀ a : Char,
          (specDFS ab k (cur ++ [a])).filter (fun s => s.length == cur.length + (j' + 1)) =
            (specLex ab j').map (fun t => (cur ++ [a]) ++ t) := by
        intro a
        have hpred : (fun s : List Char => s.length == cur.length + (j' + 1)) =
            (fun s : List Char => s.length == (cur ++ [a]).length + j') := by
          funext s
          congr 1
          simp only [List.length_append, List.length_singleton]
          omega
        rw [hpred]
        exact ih j' (cur ++ [a]) (by omega)
      have hF : (fun a => (specDFS ab k (cur ++ [a])).filter
            (fun s => s.length == cur.length + (j' + 1))) =
          (fun a => (specLex ab j').map (fun t => (cur ++ [a]) ++ t)) :=
        funext hblock
      rw [hF]
      simp only [specLex, List.map_flatMap]
      congr 1
      funext a
      rw [List.map_map]
      exact List.map_congr_left (fun t _ => by simp)

end VibeDfa

namespace VibeDfa

theorem specLex_length (ab : List Char) (L : Nat) :
    (specLex ab L).length = ab.length ^ L := by
  induction L with
  | zero => simp [specLex]
  | succ L ih =>
    simp only [specLex, List.length_flatMap]
    have hmap : List.map (List.length ∘ fun a => (specLex ab L).map (fun s => a :: s)) ab =
        List.map (fun _ => ab.length ^ L) ab :=
      List.map_congr_left (fun a _ => by simp [ih])
    rw [hmap, sum_map_const_nat, pow_succ]
    exact Nat.mul_comm _ _

theorem symRank_head (a : Char) (rest : List Char) : symRank (a :: rest) a = 0 := by
  simp [symRank]

theorem symRank_cons_ne (a b : Char) (rest : List Char) (h : a ≠ b) :
    symRank (a :: rest) b = symRank rest b + 1 := by
  simp [symRank, h]

theorem pairwise_symLt (ab : List Char) (h : ab.Nodup) : ab.Pairwise (symLt ab) := by
  induction ab with
  | nil => exact List.Pairwise.nil
  | cons a rest ih =>
    rw [List.nodup_cons] at h
    rw [List.pairwise_cons]
    constructor
    · intro b hb
      have hab : a ≠ b := fun hf => h.1 (hf ▸ hb)
      unfold symLt
      rw [symRank_head, symRank_cons_ne a b rest hab]
      omega
    · refine (ih h.2).imp_of_mem ?_
      intro x y hx hy hxy
      have hax : a ≠ x := fun hf => h.1 (hf ▸ hx)
      have hay : a ≠ y := fun hf => h.1 (hf ▸ hy)
      unfold symLt at hxy ⊢
      rw [symRank_cons_ne a x rest hax, symRank_cons_ne a y rest hay]
      omega

theorem pairwise_specLex (ab : List Char) (h : ab.Nodup) (L : Nat) :
    (specLex ab L).Pairwise (fun s t => List.Lex (symLt ab) s t) := by
  induction L with
  | zero => simp [specLex]
  | succ L ih =>
    simp only [specLex]
    rw [List.pairwise_flatMap]
    constructor
    · intro a _
      rw [List.pairwise_map]
      exact ih.imp (fun hst => List.Lex.cons hst)
    · refine (pairwise_symLt ab h).imp ?_
      intro a b hab x hx y hy
      obtain ⟨s, -, rfl⟩ := List.mem_map.mp hx
      obtain ⟨t, -, rfl⟩ := List.mem_map.mp hy
      exact List.Lex.rel hab

theorem sum_map_ite_eq {l : List Char} (hnd : l.Nodup) {a : Char} (ha : a ∈ l) (x : Nat) :
    (l.map (fun b => if b = a then x else 0)).sum = x := by
  induction l with
  | nil => cases ha
  | cons c rest ih =>
    rw [List.nodup_cons] at hnd
    rcases List.mem_cons.mp ha with rfl | ha'
    · have hzero : rest.map (fun b => if b = a then x else 0) = rest.map (fun _ => 0) := by
        refine List.map_congr_left ?_
        intro b hb
        have hba : b ≠ a := fun hf => hnd.1 (hf ▸ hb)
        exact if_neg hba
      simp [hzero, sum_map_const_nat]
    · have hca : c ≠ a := fun hf => hnd.1 (hf ▸ ha')
      simp only [List.map_cons, if_neg hca, List.sum_cons, Nat.zero_add]
      exact ih hnd.2 ha'

theorem count_cons_map (b : Char) (t : List Char) :
    ∀ (l : List (List Char)), (l.map (fun s => b :: s)).count (b :: t) = l.count t := by
  intro l
  induction l with
  | nil => rfl
  | cons u us ih =>
    by_cases h : u = t
    · subst h; simp [List.count_cons, ih]
    · have h1 : ¬ (b :: u = b :: t) := by simp [h]
      simp [List.count_cons, ih, h, h1]

theorem count_specLex (ab : List Char) (hnd : ab.Nodup) :
    ∀ (s : List Char), (∀ c ∈ s, c ∈ ab) → (specLex ab s.length).count s = 1 := by
  intro s
  induction s with
  | nil => intro _; rfl
  | cons a t ih =>
    intro hs
    have ha : a ∈ ab := hs a (List.mem_cons_self a t)
    simp only [List.length_cons, specLex, List.count_flatMap]
    have hmap : List.map (List.count (a :: t) ∘ fun b => (specLex ab t.length).map
          (fun s => b :: s)) ab =
        List.map (fun b => if b = a then 1 else 0) ab := by
      refine List.map_congr_left ?_
      intro b _
      simp only [Function.comp_apply]
      by_cases hba : b = a
      · subst hba
        rw [if_pos rfl, count_cons_map]
        exact ih (fun c hc => hs c (List.mem_cons_of_mem b hc))
      · rw [if_neg hba]
        refine List.count_eq_zero_of_not_mem ?_
        intro hmem
        obtain ⟨u, -, hu⟩ := List.mem_map.mp hmem
        have hcons : b :: u = a :: t := hu
        exact hba (List.cons_eq_cons.mp hcons).1
    rw [hmap, sum_map_ite_eq hnd ha 1]

theorem count_specDFS (ab : List Char) (hnd : ab.Nodup) (s : List Char) (k : Nat)
    (hs : ∀ c ∈ s, c ∈ ab) (hk : s.length ≤ k) :
    (specDFS ab k []).count s = 1 := by
  have hfilter := filter_specDFS ab k s.length [] hk
  have hmapid : (specLex ab s.length).map (fun t => ([] : List Char) ++ t) =
      specLex ab s.length := by
    simp
  rw [hmapid] at hfilter
  have hps : (fun t : List Char => t.length == ([] : List Char).length + s.length) s = true := by
    show (s.length == 0 + s.length) = true
    rw [Nat.zero_add, beq_self_eq_true]
  calc (specDFS ab k []).count s
      = ((specDFS ab k []).filter
          (fun t => t.length == ([] : List Char).length + s.length)).count s := by
        rw [@List.count_filter (List Char) _ _
          (fun t : List Char => t.length == ([] : List Char).length + s.length) s
          (specDFS ab k []) hps]
    _ = (specLex ab s.length).count s := by rw [hfilter]
    _ = 1 := count_specLex ab hnd s hs

end VibeDfa

namespace VibeDfa

/-! Lemmas about transition-table lookup under pruning, and about state
removal. -/

theorem lookupTr_cons (p : Char × Nat) (rest : List (Char × Nat)) (sym : Char) :
    lookupTr (p :: rest) sym = if p.1 = sym then some p.2 else lookupTr rest sym := by
  rw [lookupTr, List.find?_cons]
  by_cases h : p.1 = sym
  · simp [h]
  · have hb : (p.1 == sym) = false := by simp [h]
    rw [hb, if_neg h]
    rfl

theorem lookupTr_pruneState_not_mem (ab : List Char) (s : StateRec) (sym : Char)
    (h : sym ∉ ab) : lookupTr (pruneState ab s).transitions sym = none := by
  show lookupTr (s.transitions.filter (fun p => p.1 ∈ ab)) sym = none
  induction s.transitions with
  | nil => rfl
  | cons p rest ih =>
    rw [List.filter_cons]
    by_cases hp : p.1 ∈ ab
    · have hne : p.1 ≠ sym := fun hf => h (hf ▸ hp)
      rw [if_pos (by simpa using hp), lookupTr_cons, if_neg hne]
      exact ih
    · rw [if_neg (by simpa using hp)]
      exact ih

theorem lookupTr_pruneState_mem (ab : List Char) (s : StateRec) (sym : Char)
    (h : sym ∈ ab) :
    lookupTr (pruneState ab s).transitions sym = lookupTr s.transitions sym := by
  show lookupTr (s.transitions.filter (fun p => p.1 ∈ ab)) sym = lookupTr s.transitions sym
  induction s.transitions with
  | nil => rfl
  | cons p rest ih =>
    rw [List.filter_cons]
    by_cases hp : p.1 ∈ ab
    · rw [if_pos (by simpa using hp), lookupTr_cons, lookupTr_cons]
      by_cases hps : p.1 = sym
      · rw [if_pos hps, if_pos hps]
      · rw [if_neg hps, if_neg hps, ih]
    · have hps : p.1 ≠ sym := fun hf => hp (hf ▸ h)
      rw [if_neg (by simpa using hp), lookupTr_cons, if_neg hps, ih]

theorem find?_id_eq {l : List StateRec} {S : StateRec} {sid : Nat}
    (hnd : (l.map StateRec.id).Nodup) (hS : S ∈ l) (hid : S.id = sid) :
    l.find? (fun s => s.id == sid) = some S := by
  induction l with
  | nil => cases hS
  | cons h rest ih =>
    rw [List.map_cons, List.nodup_cons] at hnd
    rcases List.mem_cons.mp hS with rfl | hS'
    · rw [List.find?_cons]
      simp [hid]
    · have hne : h.id ≠ sid := by
        intro hf
        apply hnd.1
        have hmem : S.id ∈ rest.map StateRec.id := List.mem_map_of_mem _ hS'
        rw [hid] at hmem
        rw [hf]
        exact hmem
      rw [List.find?_cons]
      have hb : (h.id == sid) = false := by simp [hne]
      rw [hb]
      exact ih hnd.2 hS'

theorem mem_eraseP_id_ne {sid : Nat} :
    ∀ {l : List StateRec}, (l.map StateRec.id).Nodup →
      ∀ s' ∈ l.eraseP (fun s => s.id == sid), s'.id ≠ sid := by
  intro l
  induction l with
  | nil => intro _ s' hs'; cases hs'
  | cons h rest ih =>
    intro hnd s' hs' hid
    rw [List.map_cons, List.nodup_cons] at hnd
    rw [List.eraseP_cons] at hs'
    by_cases hh : h.id = sid
    · rw [show ((h.id == sid) : Bool) = true from by simp [hh]] at hs'
      simp only [cond_true] at hs'
      apply hnd.1
      have hmem : s'.id ∈ rest.map StateRec.id := List.mem_map_of_mem _ hs'
      rw [hid] at hmem
      rw [hh]
      exact hmem
    · rw [show ((h.id == sid) : Bool) = false from by simp [hh]] at hs'
      simp only [cond_false] at hs'
      rcases List.mem_cons.mp hs' with rfl | hs''
      · exact hh hid
      · exact ih hnd.2 s' hs'' hid

theorem pruneTargets_id (tid : Nat) (s : StateRec) : (pruneTargets tid s).id = s.id := rfl

end VibeDfa

namespace VibeDfa

/-- C3: for an automaton with a start state and an input whose walk from the
start state has a defined transition over an alphabet symbol at every step,
`simulate` returns no error, `accepted` equal to the reached state's
`isAccept` flag, `finalState` equal to that state's name, and a trace of
exactly `length input + 1` entries: the START entry followed by one entry
per consumed symbol recording the target state's name, the symbol, and the
remaining suffix. -/
theorem simulate_success (d : DFA) (sid : Nat) (st fin : StateRec) (input : List Char)
    (hstart : d.startState = some sid) (hfind : findState d sid = some st)
    (hwalk : walk d st input = some fin) :
    simulate d input =
      { accepted := fin.isAccept, error := none, finalState := some fin.name,
        trace := { state := st.name, symbol := "START", remaining := String.mk input,
                   error := none } :: walkTrace d st [] input } ∧
    (simulate d input).trace.length = input.length + 1 := by
  have hsim0 : simulate d input =
      simLoop d st input
        [{ state := st.name, symbol := "START", remaining := String.mk input,
           error := none }] := by
    simp only [simulate, hstart, hfind]
  rw [hsim0, simLoop_walk d input st fin _ hwalk]
  refine ⟨rfl, ?_⟩
  simp [walkTrace_length d [] input st fin hwalk]

theorem simulate_success_witness :
    (exDFA.startState = some 0 ∧ findState exDFA 0 = some exQ0 ∧
      walk exDFA exQ0 ['0', '1'] = some exQ1) ∧
    simulate exDFA ['0', '1'] =
      { accepted := exQ1.isAccept, error := none, finalState := some exQ1.name,
        trace := { state := exQ0.name, symbol := "START", remaining := String.mk ['0', '1'],
                   error := none } :: walkTrace exDFA exQ0 [] ['0', '1'] } ∧
    (simulate exDFA ['0', '1']).trace.length = ['0', '1'].length + 1 :=
  ⟨⟨rfl, by decide, by decide⟩,
    simulate_success exDFA 0 exQ0 exQ1 ['0', '1'] rfl (by decide) (by decide)⟩

/-- C5: when the walk is defined on the first `i` symbols but the symbol at
position `i` is not in the alphabet, `simulate` fails with an error naming
that symbol and returns exactly the `i + 1` already-recorded trace entries,
appending nothing for the failing position. -/
theorem simulate_symbol_not_in_alphabet (d : DFA) (sid : Nat) (st mid : StateRec)
    (pre : List Char) (c : Char) (post : List Char)
    (hstart : d.startState = some sid) (hfind : findState d sid = some st)
    (hpre : walk d st pre = some mid) (hc : c ∉ d.alphabet) :
    simulate d (pre ++ c :: post) =
      { accepted := false,
        error := some ("Symbol '" ++ symStr c ++ "' not in alphabet"),
        finalState := none,
        trace := { state := st.name, symbol := "START",
                   remaining := String.mk (pre ++ c :: post), error := none } ::
          walkTrace d st (c :: post) pre } ∧
    (simulate d (pre ++ c :: post)).trace.length = pre.length + 1 := by
  have hsim0 : simulate d (pre ++ c :: post) =
      simLoop d st (pre ++ c :: post)
        [{ state := st.name, symbol := "START", remaining := String.mk (pre ++ c :: post),
           error := none }] := by
    simp only [simulate, hstart, hfind]
  rw [hsim0, simLoop_symbol_error d c post hc pre st mid _ hpre]
  refine ⟨rfl, ?_⟩
  simp [walkTrace_length d (c :: post) pre st mid hpre]

theorem simulate_symbol_not_in_alphabet_witness :
    simulate exDFA ([] ++ '2' :: []) =
      { accepted := false,
        error := some ("Symbol '" ++ symStr '2' ++ "' not in alphabet"),
        finalState := none,
        trace := { state := exQ0.name, symbol := "START",
                   remaining := String.mk ([] ++ '2' :: []), error := none } ::
          walkTrace exDFA exQ0 ('2' :: []) [] } ∧
    (simulate exDFA ([] ++ '2' :: [])).trace.length = List.length ([] : List Char) + 1 :=
  simulate_symbol_not_in_alphabet exDFA 0 exQ0 exQ0 [] '2' [] rfl (by decide) rfl (by decide)

/-- C6: when the symbol at position `i` is in the alphabet but the state
reached after the first `i` symbols has no transition for it, `simulate`
appends one trace entry marking the failure on that state and symbol and
returns `accepted = false` with an error naming the current state and the
symbol. -/
theorem simulate_no_transition (d : DFA) (sid : Nat) (st mid : StateRec)
    (pre : List Char) (c : Char) (post : List Char)
    (hstart : d.startState = some sid) (hfind : findState d sid = some st)
    (hpre : walk d st pre = some mid) (hc : c ∈ d.alphabet)
    (hno : lookupTr mid.transitions c = none) :
    simulate d (pre ++ c :: post) =
      { accepted := false,
        error := some ("No transition from " ++ mid.name ++ " on symbol '" ++ symStr c ++ "'"),
        finalState := none,
        trace := ({ state := st.name, symbol := "START",
                    remaining := String.mk (pre ++ c :: post), error := none } ::
            walkTrace d st (c :: post) pre) ++
          [{ state := mid.name, symbol := symStr c, remaining := String.mk post,
             error := some "No transition defined" }] } := by
  have hstep : stepTarget d mid c = none := by
    simp [stepTarget, hno]
  have hsim0 : simulate d (pre ++ c :: post) =
      simLoop d st (pre ++ c :: post)
        [{ state := st.name, symbol := "START", remaining := String.mk (pre ++ c :: post),
           error := none }] := by
    simp only [simulate, hstart, hfind]
  rw [hsim0, simLoop_no_transition d c post hc pre st mid _ hpre hstep]
  simp

theorem simulate_no_transition_witness :
    simulate exDFA2 ([] ++ '0' :: []) =
      { accepted := false,
        error := some ("No transition from " ++ exQ0Bare.name ++ " on symbol '" ++
          symStr '0' ++ "'"),
        finalState := none,
        trace := ({ state := exQ0Bare.name, symbol := "START",
                    remaining := String.mk ([] ++ '0' :: []), error := none } ::
            walkTrace exDFA2 exQ0Bare ('0' :: []) []) ++
          [{ state := exQ0Bare.name, symbol := symStr '0', remaining := String.mk [],
             error := some "No transition defined" }] } :=
  simulate_no_transition exDFA2 0 exQ0Bare exQ0Bare [] '0' [] rfl (by decide) rfl
    (by decide) rfl

/-- C9: `simulate` is read-only: the state-threaded run returns the model
exactly as it received it, its report is the plain `simulate` report, and a
second run on the model left behind returns the identical result. -/
theorem simulate_pure (d : DFA) (input : List Char) :
    (simulateS d input).2 = d ∧
    (simulateS d input).1 = simulate d input ∧
    simulate (simulateS d input).2 input = simulate d input := by
  rw [simulateS_eq]
  exact ⟨rfl, rfl, rfl⟩

/-- C10: a freshly constructed automaton has the alphabet {0,1}, an empty
state collection, no start state, and identity counter 0, and
`addTransition` on the symbols 0 and 1 succeeds. -/
theorem mkDFA_defaults :
    mkDFA.alphabet = ['0', '1'] ∧ mkDFA.states = [] ∧ mkDFA.startState = none ∧
    mkDFA.stateIdCounter = 0 ∧ '0' ∈ mkDFA.alphabet ∧ '1' ∈ mkDFA.alphabet ∧
    ∀ fromId toId : Nat,
      (addTransition mkDFA fromId toId '0').1 = true ∧
      (addTransition mkDFA fromId toId '1').1 = true := by
  refine ⟨rfl, rfl, rfl, rfl, by decide, by decide, ?_⟩
  intro f t
  constructor
  · rw [addTransition, if_pos (show ('0' : Char) ∈ mkDFA.alphabet by decide)]
  · rw [addTransition, if_pos (show ('1' : Char) ∈ mkDFA.alphabet by decide)]

end VibeDfa

namespace VibeDfa

/-- C1 as stated is false: on the spec's own example automaton with alphabet
{0,1} and bound 2, the result of `generateAllStrings` is
ε, 0, 00, 01, 1, 10, 11 — the length-2 string 00 precedes the length-1
string 1, so the list is not ordered by increasing length. -/
theorem generateAllStrings_not_length_ordered :
    (generateAllStrings exDFA 2).map (fun e => e.string) =
      ["ε", "0", "00", "01", "1", "10", "11"] ∧
    ¬ ((generateAllStrings exDFA 2).map (fun e => e.string.length)).Sorted (· ≤ ·) := by
  have h := generateAllStrings_eq exDFA 2
  constructor
  · rw [h]; decide
  · rw [h]; decide

/-- C1 (amended): `generateAllStrings n` enumerates the strings in
depth-first pre-order — each string immediately followed by its one-symbol
extensions — not by increasing length; restricted to any single length
`L ≤ n` the enumeration contains all `|alphabet| ^ L` strings of that
length, ordered lexicographically with respect to the alphabet's iteration
order. -/
theorem generateAllStrings_dfs_order (d : DFA) (n : Nat) (hnd : d.alphabet.Nodup) :
    (generateAllStrings d n).map (fun e => e.string) =
      (specDFS d.alphabet n []).map display ∧
    (∀ L, L ≤ n →
      (specDFS d.alphabet n []).filter (fun s => s.length == L) = specLex d.alphabet L) ∧
    (∀ L, (specLex d.alphabet L).length = d.alphabet.length ^ L) ∧
    (∀ L, (specLex d.alphabet L).Pairwise (fun s t => List.Lex (symLt d.alphabet) s t)) := by
  refine ⟨?_, ?_, fun L => specLex_length d.alphabet L,
    fun L => pairwise_specLex d.alphabet hnd L⟩
  · rw [generateAllStrings_eq, List.map_map]
    exact List.map_congr_left (fun s _ => rfl)
  · intro L hL
    have hfilter := filter_specDFS d.alphabet n L [] hL
    have hpred : (fun s : List Char => s.length == ([] : List Char).length + L) =
        (fun s : List Char => s.length == L) := by
      funext s
      congr 1
      simp
    rw [hpred] at hfilter
    rw [hfilter]
    simp

theorem generateAllStrings_dfs_order_witness :
    (generateAllStrings exDFA 2).map (fun e => e.string) =
      (specDFS exDFA.alphabet 2 []).map display ∧
    (specDFS exDFA.alphabet 2 []).filter (fun s => s.length == 1) =
      specLex exDFA.alphabet 1 ∧
    (specLex exDFA.alphabet 1).length = exDFA.alphabet.length ^ 1 ∧
    (specLex exDFA.alphabet 1).Pairwise
      (fun s t => List.Lex (symLt exDFA.alphabet) s t) := by
  have h := generateAllStrings_dfs_order exDFA 2 (by decide)
  exact ⟨h.1, h.2.1 1 (by omega), h.2.2.1 1, h.2.2.2 1⟩

/-- C2: `generateAllStrings n` returns exactly `Σ_{k=0..n} |alphabet| ^ k`
entries, one entry per string over the alphabet of each length from 0 to
`n` (every such string occurs exactly once in the underlying enumeration),
and the empty string is always among them, displayed as ε. -/
theorem generateAllStrings_size (d : DFA) (n : Nat) (hnd : d.alphabet.Nodup) :
    (generateAllStrings d n).length = ∑ j ∈ Finset.range (n + 1), d.alphabet.length ^ j ∧
    (∀ s : List Char, (∀ c ∈ s, c ∈ d.alphabet) → s.length ≤ n →
      { string := display s, accepted := genAccept d s } ∈ generateAllStrings d n ∧
      (specDFS d.alphabet n []).count s = 1) ∧
    { string := "ε", accepted := genAccept d [] } ∈ generateAllStrings d n := by
  refine ⟨?_, ?_, ?_⟩
  · rw [generateAllStrings_eq, List.length_map, specDFS_length, strCount_eq_sum]
  · intro s hsab hslen
    constructor
    · rw [generateAllStrings_eq]
      exact List.mem_map.mpr ⟨s, (mem_specDFS _ _ _ _).mpr ⟨s, by simp, hsab, hslen⟩, rfl⟩
    · exact count_specDFS d.alphabet hnd s n hsab hslen
  · rw [generateAllStrings_eq]
    exact List.mem_map.mpr
      ⟨[], (mem_specDFS _ _ _ _).mpr ⟨[], by simp, by simp, by simp⟩, rfl⟩

theorem generateAllStrings_size_witness :
    (generateAllStrings exDFA 2).length =
      ∑ j ∈ Finset.range 3, exDFA.alphabet.length ^ j ∧
    ({ string := display ['0', '1'], accepted := genAccept exDFA ['0', '1'] } ∈
        generateAllStrings exDFA 2 ∧
      (specDFS exDFA.alphabet 2 []).count ['0', '1'] = 1) ∧
    { string := "ε", accepted := genAccept exDFA [] } ∈ generateAllStrings exDFA 2 := by
  have h := generateAllStrings_size exDFA 2 (by decide)
  exact ⟨h.1, h.2.1 ['0', '1'] (by decide) (by decide), h.2.2⟩

/-- C4: for any string over the alphabet with length at most `n`, the entry
`generateAllStrings n` produces for it is present, and that entry's
`accepted` flag is true exactly when `simulate` on the string reports
`accepted = true` with no error. -/
theorem simulate_generate_acceptance (d : DFA) (n : Nat) (x : List Char)
    (hx : ∀ c ∈ x, c ∈ d.alphabet) (hlen : x.length ≤ n) :
    { string := display x, accepted := genAccept d x } ∈ generateAllStrings d n ∧
    (genAccept d x = true ↔
      (simulate d x).accepted = true ∧ (simulate d x).error = none) := by
  constructor
  · rw [generateAllStrings_eq]
    exact List.mem_map.mpr ⟨x, (mem_specDFS _ _ _ _).mpr ⟨x, by simp, hx, hlen⟩, rfl⟩
  · unfold genAccept
    rw [Bool.and_eq_true, Option.isNone_iff_eq_none]

theorem simulate_generate_acceptance_witness :
    ({ string := display ['1'], accepted := genAccept exDFA ['1'] } ∈
      generateAllStrings exDFA 2) ∧
    (genAccept exDFA ['1'] = true ↔
      (simulate exDFA ['1']).accepted = true ∧ (simulate exDFA ['1']).error = none) :=
  simulate_generate_acceptance exDFA 2 ['1'] (by decide) (by decide)

end VibeDfa

namespace VibeDfa

/-- C7: after `setAlphabet A` the alphabet equals the set of symbols of `A`;
every state in the automaton is the pruned version of the corresponding old
state, in which every transition on a symbol not in `A` is absent and every
transition on a symbol in `A` is unchanged. -/
theorem setAlphabet_cascade (d : DFA) (A : List Char) :
    (∀ x, x ∈ (setAlphabet d A).alphabet ↔ x ∈ A) ∧
    ((setAlphabet d A).states = d.states.map (pruneState (dedupFirst A))) ∧
    (∀ s' ∈ (setAlphabet d A).states, ∀ sym, sym ∉ A →
      lookupTr s'.transitions sym = none) ∧
    (∀ s : StateRec, ∀ sym, sym ∈ A →
      lookupTr (pruneState (dedupFirst A) s).transitions sym =
        lookupTr s.transitions sym) := by
  refine ⟨?_, rfl, ?_, ?_⟩
  · intro x
    exact mem_dedupFirst x A
  · intro s' hs' sym hsym
    obtain ⟨s, -, rfl⟩ := List.mem_map.mp hs'
    exact lookupTr_pruneState_not_mem _ s sym (fun h => hsym ((mem_dedupFirst sym A).mp h))
  · intro s sym hsym
    exact lookupTr_pruneState_mem _ s sym ((mem_dedupFirst sym A).mpr hsym)

theorem setAlphabet_cascade_witness :
    ('0' ∈ (setAlphabet exDFA ['1']).alphabet ↔ '0' ∈ ['1']) ∧
    ((setAlphabet exDFA ['1']).states = exDFA.states.map (pruneState (dedupFirst ['1']))) ∧
    lookupTr (pruneState (dedupFirst ['1']) exQ0).transitions '0' = none ∧
    lookupTr (pruneState (dedupFirst ['1']) exQ0).transitions '1' =
      lookupTr exQ0.transitions '1' := by
  have h := setAlphabet_cascade exDFA ['1']
  refine ⟨h.1 '0', h.2.1, ?_, h.2.2.2 exQ0 '1' (by decide)⟩
  refine h.2.2.1 (pruneState (dedupFirst ['1']) exQ0) ?_ '0' (by decide)
  rw [h.2.1]
  exact List.mem_map.mpr ⟨exQ0, by decide, rfl⟩

/-- C8: `removeState id`, when a state with that identity is present (state
identities are unique by construction), removes it, leaves no transition
targeting it in any remaining state, and clears the start reference exactly
when it pointed to that state; when no state has the identity, the
automaton is unchanged. -/
theorem removeState_cascade (d : DFA) (sid : Nat)
    (hnd : (d.states.map StateRec.id).Nodup) :
    ((∃ S ∈ d.states, S.id = sid) →
      (∀ s' ∈ (removeState d sid).states, s'.id ≠ sid) ∧
      (∀ s' ∈ (removeState d sid).states, ∀ p ∈ s'.transitions, p.2 ≠ sid) ∧
      ((removeState d sid).startState =
        if d.startState = some sid then none else d.startState) ∧
      (removeState d sid).states.length + 1 = d.states.length) ∧
    ((∀ S ∈ d.states, S.id ≠ sid) → removeState d sid = d) := by
  constructor
  · rintro ⟨S, hS, hid⟩
    have hfind : d.states.find? (fun s => s.id == sid) = some S := find?_id_eq hnd hS hid
    have hred : removeState d sid =
        { d with
          startState := if d.startState = some S.id then none else d.startState,
          states := (d.states.map (pruneTargets S.id)).eraseP (fun s => s.id == sid) } := by
      simp only [removeState, hfind]
    have hndmap : ((d.states.map (pruneTargets S.id)).map StateRec.id).Nodup := by
      rw [List.map_map]
      have : (StateRec.id ∘ pruneTargets S.id) = StateRec.id := by
        funext s
        rfl
      rw [this]
      exact hnd
    refine ⟨?_, ?_, ?_, ?_⟩
    · intro s' hs'
      rw [hred] at hs'
      exact mem_eraseP_id_ne hndmap s' hs'
    · intro s' hs' p hp
      rw [hred] at hs'
      have hs'' : s' ∈ d.states.map (pruneTargets S.id) :=
        List.mem_of_mem_eraseP hs'
      obtain ⟨s, -, rfl⟩ := List.mem_map.mp hs''
      have hp' := List.mem_filter.mp hp
      intro hf
      rw [hid] at hp'
      exact absurd hf (by simpa using hp'.2)
    · rw [hred, hid]
    · rw [hred]
      have hmem : pruneTargets S.id S ∈ d.states.map (pruneTargets S.id) :=
        List.mem_map.mpr ⟨S, hS, rfl⟩
    
      have hp : (fun s : StateRec => s.id == sid) (pruneTargets S.id S) = true := by
        simp [pruneTargets_id, hid]
      rw [List.length_eraseP_of_mem hmem hp, List.length_map]
      have hpos : 0 < d.states.length := List.length_pos_of_mem hS
      omega
  · intro hno
    have hfind : d.states.find? (fun s => s.id == sid) = none :=
      List.find?_eq_none.mpr (fun x hx => by simp [hno x hx])
    simp only [removeState, hfind]

theorem removeState_cascade_witness :
    ((removeState exDFA 1).startState =
      if exDFA.startState = some 1 then none else exDFA.startState) ∧
    (removeState exDFA 1).states.length + 1 = exDFA.states.length ∧
    removeState exDFA 5 = exDFA := by
  have h1 := removeState_cascade exDFA 1 (by decide)
  have h5 := removeState_cascade exDFA 5 (by decide)
  have hex : ∃ S ∈ exDFA.states, S.id = 1 := ⟨exQ1, by decide, rfl⟩
  exact ⟨(h1.1 hex).2.2.1, (h1.1 hex).2.2.2, h5.2 (by decide)⟩

end VibeDfa
